import Mathlib

/-!
Shallow embedding of the itinerary-search core of the repository:

* `Algo` models `src/backend/algo.cpp` (`FlightNetwork::getTopKPaths`,
  the price-optimizing K-best search).
* `Smart` models `src/jsondb.cpp` (`JsonDB::find_smart_routes`, the
  duration-optimizing date-aware variant, and
  `JsonDB::parse_duration_string`).
* `Store` models the duplicate-checked admin operations
  `JsonDB::add_airport` and `JsonDB::add_flight`.

C++ `int` values are modelled as `Int`; `std::string` as `String`
(or `List Char` for the character-level duration parser);
`std::priority_queue` with a `greater` comparator as a list together
with `popMin`, which removes a minimal-key element (ties resolved
toward the earliest element, one fixed deterministic choice among the
behaviours a binary heap may exhibit).  Each `while` loop is modelled
as a step function `step : Config → Option Config` (`none` exactly when
the loop exits) iterated by `runOpt` with enough fuel, which the
termination theorems justify.
-/

namespace FlightSearch

/-- Remove a minimal-key element from a list, returning it and the rest
in their original relative order.  Models popping the C++ min-heap. -/
def popMin {α : Type} (key : α → Int) : List α → Option (α × List α)
  | [] => none
  | a :: l =>
    match popMin key l with
    | none => some (a, [])
    | some (b, l') => if key b < key a then some (b, a :: l') else some (a, l)

theorem popMin_eq_none {α : Type} (key : α → Int) (l : List α) :
    popMin key l = none ↔ l = [] := by
  cases l with
  | nil => simp [popMin]
  | cons a l =>
    simp only [popMin]
    cases h : popMin key l with
    | none => simp
    | some p =>
      obtain ⟨b, l'⟩ := p
      by_cases hlt : key b < key a <;> simp [hlt]

theorem popMin_perm {α : Type} (key : α → Int) :
    ∀ {l : List α} {a : α} {r : List α},
      popMin key l = some (a, r) → l.Perm (a :: r)
  | [], a, r => by simp [popMin]
  | x :: l, a, r => by
    cases hrec : popMin key l with
    | none =>
      intro h
      have hl : l = [] := (popMin_eq_none key l).mp hrec
      subst hl
      simp only [popMin, Option.some.injEq, Prod.mk.injEq] at h
      obtain ⟨h1, h2⟩ := h
      subst h1; subst h2
      exact List.Perm.refl _
    | some p =>
      obtain ⟨b, l'⟩ := p
      have hperm : l.Perm (b :: l') := popMin_perm key hrec
      intro h
      simp only [popMin, hrec] at h
      split at h
      next hlt =>
        simp only [Option.some.injEq, Prod.mk.injEq] at h
        obtain ⟨h1, h2⟩ := h
        subst h1; subst h2
        exact List.Perm.trans (hperm.cons x) (List.Perm.swap _ x l')
      next hlt =>
        simp only [Option.some.injEq, Prod.mk.injEq] at h
        obtain ⟨h1, h2⟩ := h
        subst h1; subst h2
        exact List.Perm.refl _

theorem popMin_le {α : Type} (key : α → Int) :
    ∀ {l : List α} {a : α} {r : List α},
      popMin key l = some (a, r) → ∀ b ∈ l, key a ≤ key b
  | [], a, r => by simp [popMin]
  | x :: l, a, r => by
    cases hrec : popMin key l with
    | none =>
      intro h b hb
      have hl : l = [] := (popMin_eq_none key l).mp hrec
      subst hl
      simp only [popMin, Option.some.injEq, Prod.mk.injEq] at h
      rcases List.mem_singleton.mp hb with rfl
      simp [← h.1]
    | some p =>
      obtain ⟨c, l'⟩ := p
      have hmin : ∀ y ∈ l, key c ≤ key y := popMin_le key hrec
      intro h b hb
      simp only [popMin, hrec] at h
      split at h
      next hlt =>
        simp only [Option.some.injEq, Prod.mk.injEq] at h
        obtain ⟨h1, _⟩ := h
        subst h1
        rcases List.mem_cons.mp hb with rfl | hbl
        · exact le_of_lt hlt
        · exact hmin b hbl
      next hlt =>
        simp only [Option.some.injEq, Prod.mk.injEq] at h
        obtain ⟨h1, _⟩ := h
        subst h1
        rcases List.mem_cons.mp hb with rfl | hbl
        · exact le_refl _
        · exact le_trans (not_lt.mp hlt) (hmin b hbl)

/-- Iterate a step function until it signals loop exit (`none`) or the
fuel runs out. -/
def runOpt {σ : Type} (f : σ → Option σ) : Nat → σ → σ
  | 0, c => c
  | n + 1, c =>
    match f c with
    | none => c
    | some c' => runOpt f n c'

theorem runOpt_of_none {σ : Type} (f : σ → Option σ) (n : Nat) (c : σ)
    (h : f c = none) : runOpt f n c = c := by
  cases n with
  | zero => rfl
  | succ n => simp [runOpt, h]

/-- A step function that strictly decreases a natural measure reaches
loop exit within `μ c` iterations. -/
theorem runOpt_reaches_none {σ : Type} (f : σ → Option σ) (μ : σ → Nat)
    (hdec : ∀ c c', f c = some c' → μ c' < μ c) :
    ∀ n c, μ c ≤ n → f (runOpt f n c) = none := by
  intro n
  induction n with
  | zero =>
    intro c hc
    cases hfc : f c with
    | none => simpa [runOpt]
    | some c' =>
      have := hdec c c' hfc
      omega
  | succ n ih =>
    intro c hc
    cases hfc : f c with
    | none => rw [runOpt_of_none f _ c hfc]; exact hfc
    | some c' =>
      have hlt := hdec c c' hfc
      have : μ c' ≤ n := by omega
      simpa [runOpt, hfc] using ih c' this

/-- An invariant preserved by every step holds after any run. -/
theorem runOpt_inv {σ : Type} (f : σ → Option σ) (P : σ → Prop)
    (hP : ∀ c c', f c = some c' → P c → P c') :
    ∀ n c, P c → P (runOpt f n c) := by
  intro n
  induction n with
  | zero => intro c hc; exact hc
  | succ n ih =>
    intro c hc
    cases hfc : f c with
    | none => simpa [runOpt, hfc]
    | some c' =>
      simp only [runOpt, hfc]
      exact ih c' (hP c c' hfc hc)

/-- Increment a counter map at one key (`visitCounts[u]++` on a
`map<string,int>` defaulting to zero). -/
def bump (vc : String → Nat) (u : String) : String → Nat :=
  fun v => if v = u then vc u + 1 else vc v

theorem bump_self (vc : String → Nat) (u : String) : bump vc u u = vc u + 1 := by
  simp [bump]

theorem bump_ne (vc : String → Nat) (u v : String) (h : v ≠ u) :
    bump vc u v = vc v := by
  simp [bump, h]

/-- Lexicographic comparison of character lists, the order used by
`std::string::operator<`. -/
def lexLt : List Char → List Char → Bool
  | [], [] => false
  | [], _ :: _ => true
  | _ :: _, [] => false
  | a :: as, b :: bs => if a < b then true else if b < a then false else lexLt as bs

/-- `s < t` on `std::string`. -/
def cppStrLt (s t : String) : Bool := lexLt s.data t.data

/-- `s <= t` on `std::string` (the negation of `t < s`). -/
def cppStrLe (s t : String) : Bool := !(cppStrLt t s)

namespace Algo

/-- One scheduled flight, the edge type of `algo.cpp` (`struct Flight`).
`arrTime` is stored already summed (`f.arrTime = dep + duration` in
`addFlight`). -/
structure Flight where
  id : String
  «from» : String
  «to» : String
  cost : Int
  depTime : Int
  arrTime : Int
deriving DecidableEq

/-- The network is the list of flights in the order they were added;
`FlightNetwork::addFlight` appends one flight with `arrTime` derived. -/
def addFlight (g : List Flight) (id u v : String) (cost dep duration : Int) :
    List Flight :=
  g ++ [{ id := id, «from» := u, «to» := v, cost := cost, depTime := dep,
          arrTime := dep + duration }]

/-- Outgoing flights of a node, in insertion order (`adjList[u]`). -/
def adjOf (g : List Flight) (u : String) : List Flight :=
  g.filter (fun f => decide (f.«from» = u))

/-- The priority-queue element of `algo.cpp` (`struct SearchState`). -/
structure SearchState where
  currentCost : Int
  currentAirport : String
  arrivalTime : Int
  pathHistory : List Flight
  visitedNodes : List String
deriving DecidableEq

/-- A finalized path (`struct PathResult`); the route keeps the flights
taken rather than their formatted descriptions. -/
structure PathResult where
  totalCost : Int
  arrivalTime : Int
  route : List Flight
deriving DecidableEq

/-- The two expansion filters of the inner loop: the cycle check over
`visitedNodes` and the layover feasibility check. -/
def passes (minLayoverMins : Int) (current : SearchState) (f : Flight) : Prop :=
  f.«to» ∉ current.visitedNodes ∧
  (current.arrivalTime = -1 ∨ current.arrivalTime + minLayoverMins ≤ f.depTime)

instance (minLayoverMins : Int) (current : SearchState) (f : Flight) :
    Decidable (passes minLayoverMins current f) := by
  unfold passes; infer_instance

/-- Derive the child state pushed for one admissible flight. -/
def mkChild (current : SearchState) (f : Flight) : SearchState :=
  { currentCost := current.currentCost + f.cost
    currentAirport := f.«to»
    arrivalTime := f.arrTime
    pathHistory := current.pathHistory ++ [f]
    visitedNodes := current.visitedNodes ++ [f.«to»] }

/-- All children pushed while expanding one popped state. -/
def expand (g : List Flight) (minLayoverMins : Int) (current : SearchState) :
    List SearchState :=
  ((adjOf g current.currentAirport).filter
      (fun f => decide (passes minLayoverMins current f))).map (mkChild current)

/-- Loop state of `getTopKPaths`: the frontier, the per-node pop
counters, the accumulated results, and whether the early `return`
(`results.size() >= k`) has fired. -/
structure Config where
  pq : List SearchState
  visitCounts : String → Nat
  results : List PathResult
  halted : Bool

/-- Finalize a state popped at the destination. -/
def finalize (s : SearchState) : PathResult :=
  { totalCost := s.currentCost, arrivalTime := s.arrivalTime,
    route := s.pathHistory }

/-- One iteration of the `while (!pq.empty())` loop of `getTopKPaths`;
`none` exactly when the loop exits. -/
def step (g : List Flight) (endNode : String) (k : Nat) (minLayoverMins : Int)
    (c : Config) : Option Config :=
  if c.halted then none else
  match popMin (fun s => s.currentCost) c.pq with
  | none => none
  | some (current, rest) =>
    if current.currentAirport = endNode then
      some { pq := rest, visitCounts := c.visitCounts,
             results := c.results ++ [finalize current],
             halted := decide (k ≤ (c.results ++ [finalize current]).length) }
    else if k + 5 < bump c.visitCounts current.currentAirport
        current.currentAirport then
      some { pq := rest, visitCounts := bump c.visitCounts current.currentAirport,
             results := c.results, halted := false }
    else
      some { pq := rest ++ expand g minLayoverMins current,
             visitCounts := bump c.visitCounts current.currentAirport,
             results := c.results, halted := false }

/-- Termination credit: how many more expansions the revisit cap still
allows, weighted by out-degree. -/
def credit (g : List Flight) (cap : Nat) (vc : String → Nat) : Nat :=
  ∑ u ∈ (g.map Flight.«from»).toFinset, (cap - vc u) * (adjOf g u).length

/-- Measure strictly decreased by every loop iteration. -/
def mu (g : List Flight) (k : Nat) (c : Config) : Nat :=
  c.pq.length + credit g (k + 5) c.visitCounts

/-- The initial state pushed before the loop (cost 0, sentinel arrival
time −1, visited set containing the start node). -/
def initState (startNode : String) : SearchState :=
  { currentCost := 0, currentAirport := startNode, arrivalTime := -1,
    pathHistory := [], visitedNodes := [startNode] }

def initConfig (startNode : String) : Config :=
  { pq := [initState startNode], visitCounts := fun _ => 0, results := [],
    halted := false }

/-- `FlightNetwork::getTopKPaths`, run with enough fuel for the loop to
exit (justified by the termination theorem). -/
def getTopKPaths (g : List Flight) (startNode endNode : String) (k : Nat)
    (minLayoverMins : Int) : List PathResult :=
  (runOpt (step g endNode k minLayoverMins) (mu g k (initConfig startNode))
    (initConfig startNode)).results

end Algo

namespace Smart

/-- `struct Edge` of `jsondb.h`: one flight record as stored in the
adjacency list, with its duration already resolved into minutes. -/
structure Edge where
  destination : String
  weight_minutes : Int
  flight_id : String
  date : String
  dep_time : String
  arr_time : String
  price : Int
  airline : String
deriving DecidableEq

/-- `struct PathState` of `jsondb.cpp`. -/
structure PathState where
  total_minutes : Int
  current_node : String
  history : List Edge
deriving DecidableEq

/-- One JSON segment of a finalized route (after the second pass has
overwritten every segment's origin by forward chaining). -/
structure Segment where
  airline : String
  flight_id : String
  «from» : String
  «to» : String
  dep : String
  arr : String
  price : Int
deriving DecidableEq

/-- One JSON route object pushed into the results array. -/
structure Route where
  total_time : Int
  stops : Int
  segments : List Segment
  total_price : Int
deriving DecidableEq

/-- The adjacency list (`unordered_map<string, vector<Edge>>`), used for
lookup only; modelled as an association list. -/
def adjOf (adj : List (String × List Edge)) (u : String) : List Edge :=
  match adj.find? (fun p => decide (p.1 = u)) with
  | none => []
  | some p => p.2

/-- Forward chaining of segment origins: the first segment departs from
the query source, every later segment from the previous destination
(the fix-up loop over `segments` in `find_smart_routes`). -/
def chainSegments (prev : String) : List Edge → List Segment
  | [] => []
  | e :: rest =>
    { airline := e.airline, flight_id := e.flight_id, «from» := prev,
      «to» := e.destination, dep := e.dep_time, arr := e.arr_time,
      price := e.price } :: chainSegments e.destination rest

/-- Convert a state popped at the destination into the JSON route:
total time, `stops = (int)history.size() - 1`, chained segments and the
summed price. -/
def finalizeRoute (src : String) (top : PathState) : Route :=
  let segments := chainSegments src top.history
  { total_time := top.total_minutes
    stops := (top.history.length : Int) - 1
    segments := segments
    total_price := (segments.map Segment.price).sum }

/-- The cycle flag computed by the inner loop: it is set only when the
current node differs from the source, the history is non-empty (the
`for` loop body runs at least once) and the candidate edge returns to
the source. -/
def cycleCheck (src : String) (top : PathState) (e : Edge) : Prop :=
  ¬ (top.current_node = src) ∧ top.history ≠ [] ∧ e.destination = src

instance (src : String) (top : PathState) (e : Edge) :
    Decidable (cycleCheck src top e) := by
  unfold cycleCheck; infer_instance

/-- The three expansion filters: exact date match, the cycle flag, and
the connection check `edge.dep_time < prev_arr` on "HH:MM" strings
compared lexically. -/
def passes (src req_date : String) (top : PathState) (e : Edge) : Prop :=
  e.date = req_date ∧
  ¬ cycleCheck src top e ∧
  (match top.history.getLast? with
   | none => True
   | some prev => cppStrLt e.dep_time prev.arr_time = false)

instance (src req_date : String) (top : PathState) (e : Edge) :
    Decidable (passes src req_date top e) := by
  unfold passes
  cases top.history.getLast? <;> · simp only; infer_instance

/-- Child state: weight grows by the edge's minutes plus a fixed
60-minute connection penalty when this is not the first leg. -/
def mkChild (top : PathState) (e : Edge) : PathState :=
  { total_minutes :=
      top.total_minutes + e.weight_minutes +
        (if top.history.isEmpty then 0 else 60)
    current_node := e.destination
    history := top.history ++ [e] }

/-- All children pushed while expanding one popped state. -/
def expand (adj : List (String × List Edge)) (src req_date : String)
    (top : PathState) : List PathState :=
  ((adjOf adj top.current_node).filter
      (fun e => decide (passes src req_date top e))).map (mkChild top)

/-- Loop state of `find_smart_routes`: the frontier, the per-node
`visits` counters, and the results array. -/
structure Config where
  pq : List PathState
  visits : String → Nat
  results : List Route

/-- One iteration of `while (!pq.empty() && results.size() < k)`;
`none` exactly when the loop condition fails.  The goal check precedes
the visit-count pruning, and the pruning checks the counter before
incrementing it. -/
def step (adj : List (String × List Edge)) (src dst req_date : String)
    (k : Nat) (c : Config) : Option Config :=
  if k ≤ c.results.length then none else
  match popMin (fun s => s.total_minutes) c.pq with
  | none => none
  | some (top, rest) =>
    if top.current_node = dst then
      some { pq := rest, visits := c.visits,
             results := c.results ++ [finalizeRoute src top] }
    else if k ≤ c.visits top.current_node then
      some { pq := rest, visits := c.visits, results := c.results }
    else
      some { pq := rest ++ expand adj src req_date top,
             visits := bump c.visits top.current_node, results := c.results }

/-- Termination credit, as for the price variant but with cap `k`. -/
def credit (adj : List (String × List Edge)) (cap : Nat)
    (vc : String → Nat) : Nat :=
  ∑ u ∈ (adj.map Prod.fst).toFinset, (cap - vc u) * (adjOf adj u).length

/-- Measure strictly decreased by every loop iteration. -/
def mu (adj : List (String × List Edge)) (k : Nat) (c : Config) : Nat :=
  c.pq.length + credit adj k c.visits

def initConfig (src : String) : Config :=
  { pq := [{ total_minutes := 0, current_node := src, history := [] }],
    visits := fun _ => 0, results := [] }

/-- `JsonDB::find_smart_routes`, run with enough fuel for the loop to
exit (justified by the termination theorem). -/
def find_smart_routes (adj : List (String × List Edge))
    (src dst req_date : String) (k : Nat) : List Route :=
  (runOpt (step adj src dst req_date k) (mu adj k (initConfig src))
    (initConfig src)).results

/-- Whitespace in the default locale's `isspace`, as skipped by
`std::stoi`. -/
def isCppSpace (c : Char) : Bool :=
  c = ' ' || c = '\t' || c = '\n' || (c = Char.ofNat 11) ||
  (c = Char.ofNat 12) || c = '\r'

/-- Numeric value of a digit string. -/
def digitsVal (l : List Char) : Nat :=
  l.foldl (fun a c => a * 10 + (c.toNat - 48)) 0

/-- Leading sign recognised by `std::stoi`. -/
def splitSign : List Char → Int × List Char
  | [] => (1, [])
  | c :: rest =>
    if c = '-' then (-1, rest)
    else if c = '+' then (1, rest)
    else (1, c :: rest)

/-- `std::stoi`: skip whitespace, read an optional sign and a non-empty
digit run; `none` models the thrown `invalid_argument` (no digits) or
`out_of_range` (value outside 32-bit `int`) exceptions. -/
def stoiOpt (s : List Char) : Option Int :=
  let s1 := s.dropWhile isCppSpace
  let p := splitSign s1
  let digs := p.2.takeWhile Char.isDigit
  if digs = [] then none
  else
    let v : Int := p.1 * (digitsVal digs : Int)
    if v < -2147483648 ∨ 2147483647 < v then none else some v

/-- Index of the first occurrence of a character (`std::string::find`),
`none` for `npos`. -/
def cppFind (c : Char) : List Char → Option Nat
  | [] => none
  | x :: rest =>
    if x = c then some 0
    else (cppFind c rest).map (· + 1)

/-- Length argument of the `substr` that extracts the minutes part:
`m_pos - space_pos - 1` in `size_t` arithmetic.  When `m_pos` is before
`space_pos + 1` the subtraction wraps around to a huge value and
`substr` clamps it to the rest of the string, which taking `total`
characters reproduces. -/
def substrLen (space_pos m_pos total : Nat) : Nat :=
  if space_pos + 1 ≤ m_pos then m_pos - space_pos - 1 else total

/-- `JsonDB::parse_duration_string` on the character list of the input:
no `'h'` returns 0; a failing `stoi` anywhere inside the `try` block
returns the 60-minute fallback; otherwise `hours * 60 + mins`, where
the minutes part is parsed only when both a space and an `'m'` are
present. -/
def parse_duration_string (dur : List Char) : Int :=
  match cppFind 'h' dur with
  | none => 0
  | some h_pos =>
    match stoiOpt (dur.take h_pos) with
    | none => 60
    | some hours =>
      match cppFind ' ' dur, cppFind 'm' dur with
      | some space_pos, some m_pos =>
        match stoiOpt ((dur.drop (space_pos + 1)).take
            (substrLen space_pos m_pos dur.length)) with
        | none => 60
        | some mins => hours * 60 + mins
      | none, _ => hours * 60
      | some _, none => hours * 60

end Smart

namespace Store

/-- An airport record: the duplicate check in `add_airport` looks only
at `code`; every other stored field is carried opaquely as `payload`. -/
structure AirportRec (π : Type) where
  code : String
  payload : π
deriving DecidableEq

/-- A flight record: the duplicate check in `add_flight` looks only at
`id`. -/
structure FlightRec (φ : Type) where
  id : String
  payload : φ
deriving DecidableEq

/-- The JSON document held in `JsonDB::data`: the two arrays, each
absent when the document lacks the key. -/
structure Data (π φ : Type) where
  airports : Option (List (AirportRec π))
  flights : Option (List (FlightRec φ))
deriving DecidableEq

/-- The database state: the in-memory document and the file contents
written by `save()`. -/
structure DB (π φ : Type) where
  data : Data π φ
  file : Data π φ
deriving DecidableEq

/-- `JsonDB::add_airport`: create the array if absent, reject a
duplicate code, otherwise append and save. -/
def add_airport {π φ : Type} (apt : AirportRec π) (db : DB π φ) :
    Bool × DB π φ :=
  let lst := db.data.airports.getD []
  let d1 : Data π φ := { db.data with airports := some lst }
  if lst.any (fun existing => existing.code = apt.code) then
    (false, { db with data := d1 })
  else
    let d2 : Data π φ := { d1 with airports := some (lst ++ [apt]) }
    (true, { data := d2, file := d2 })

/-- `JsonDB::add_flight`: create the array if absent, reject a
duplicate id, otherwise append and save. -/
def add_flight {π φ : Type} (fl : FlightRec φ) (db : DB π φ) :
    Bool × DB π φ :=
  let lst := db.data.flights.getD []
  let d1 : Data π φ := { db.data with flights := some lst }
  if lst.any (fun existing => existing.id = fl.id) then
    (false, { db with data := d1 })
  else
    let d2 : Data π φ := { d1 with flights := some (lst ++ [fl]) }
    (true, { data := d2, file := d2 })

end Store

/-! ### Termination of the two search loops -/

theorem sum_credit_bump_ge (S : Finset String) (deg : String → Nat) (cap : Nat)
    (vc : String → Nat) (u : String) (h : cap ≤ vc u) :
    ∑ v ∈ S, (cap - bump vc u v) * deg v = ∑ v ∈ S, (cap - vc v) * deg v := by
  refine Finset.sum_congr rfl (fun v _ => ?_)
  by_cases hveq : v = u
  · subst hveq
    rw [bump_self]
    have hz : cap - (vc v + 1) = cap - vc v := by omega
    rw [hz]
  · rw [bump_ne vc u v hveq]

theorem sum_credit_bump_not_mem (S : Finset String) (deg : String → Nat)
    (cap : Nat) (vc : String → Nat) (u : String) (h : u ∉ S) :
    ∑ v ∈ S, (cap - bump vc u v) * deg v = ∑ v ∈ S, (cap - vc v) * deg v := by
  refine Finset.sum_congr rfl (fun v hv => ?_)
  have hne : v ≠ u := fun hEq => h (hEq ▸ hv)
  rw [bump_ne vc u v hne]

theorem sum_credit_bump_lt (S : Finset String) (deg : String → Nat) (cap : Nat)
    (vc : String → Nat) (u : String) (hlt : vc u < cap) (hu : u ∈ S) :
    ∑ v ∈ S, (cap - vc v) * deg v
      = (∑ v ∈ S, (cap - bump vc u v) * deg v) + deg u := by
  have h1 := Finset.add_sum_erase S (fun v => (cap - vc v) * deg v) hu
  have h2 := Finset.add_sum_erase S (fun v => (cap - bump vc u v) * deg v) hu
  have hcong : ∑ v ∈ S.erase u, (cap - bump vc u v) * deg v
      = ∑ v ∈ S.erase u, (cap - vc v) * deg v := by
    refine Finset.sum_congr rfl (fun v hv => ?_)
    have hne : v ≠ u := (Finset.mem_erase.mp hv).1
    rw [bump_ne vc u v hne]
  rw [← h1, ← h2, hcong]
  dsimp only
  rw [bump_self]
  have hs : cap - vc u = (cap - (vc u + 1)) + 1 := by omega
  rw [hs]
  ring

theorem adjOfP_eq_nil (g : List Algo.Flight) (u : String)
    (h : u ∉ (g.map Algo.Flight.«from»).toFinset) : Algo.adjOf g u = [] := by
  unfold Algo.adjOf
  rw [List.filter_eq_nil_iff]
  intro f hf
  simp only [decide_eq_true_eq]
  intro hfu
  exact h (by rw [List.mem_toFinset, List.mem_map]; exact ⟨f, hf, hfu⟩)

theorem adjOfS_eq_nil (adj : List (String × List Smart.Edge)) (u : String)
    (h : u ∉ (adj.map Prod.fst).toFinset) : Smart.adjOf adj u = [] := by
  unfold Smart.adjOf
  have hnone : adj.find? (fun p => decide (p.1 = u)) = none := by
    rw [List.find?_eq_none]
    intro p hp
    simp only [decide_eq_true_eq]
    intro hpu
    exact h (by rw [List.mem_toFinset, List.mem_map]; exact ⟨p, hp, hpu⟩)
  rw [hnone]

theorem expandP_length_le (g : List Algo.Flight) (lay : Int)
    (cur : Algo.SearchState) :
    (Algo.expand g lay cur).length ≤ (Algo.adjOf g cur.currentAirport).length := by
  unfold Algo.expand
  rw [List.length_map]
  exact List.length_filter_le _ _

theorem expandS_length_le (adj : List (String × List Smart.Edge))
    (src req_date : String) (top : Smart.PathState) :
    (Smart.expand adj src req_date top).length
      ≤ (Smart.adjOf adj top.current_node).length := by
  unfold Smart.expand
  rw [List.length_map]
  exact List.length_filter_le _ _

theorem stepP_decreases (g : List Algo.Flight) (endNode : String) (k : Nat)
    (lay : Int) (c c' : Algo.Config)
    (h : Algo.step g endNode k lay c = some c') :
    Algo.mu g k c' < Algo.mu g k c := by
  unfold Algo.step at h
  split at h
  · exact absurd h (by simp)
  cases hpop : popMin (fun s => s.currentCost) c.pq with
  | none => rw [hpop] at h; exact absurd h (by simp)
  | some pr =>
    obtain ⟨cur, rest⟩ := pr
    rw [hpop] at h
    have hlen : c.pq.length = rest.length + 1 := by
      have := (popMin_perm _ hpop).length_eq
      simpa using this
    simp only [] at h
    split at h
    · -- destination reached: pop only
      injection h with h'
      subst h'
      unfold Algo.mu
      dsimp only
      omega
    · split at h
      · -- pruned: pop only, counters bumped past the cap
        injection h with h'
        subst h'
        rename_i hprune
        rw [bump_self] at hprune
        have hge : k + 5 ≤ c.visitCounts cur.currentAirport := by omega
        unfold Algo.mu Algo.credit
        dsimp only
        have hcred := sum_credit_bump_ge (g.map Algo.Flight.«from»).toFinset
          (fun u => (Algo.adjOf g u).length) (k + 5) c.visitCounts
          cur.currentAirport hge
        dsimp only at hcred
        omega
      · -- expanded
        injection h with h'
        subst h'
        rename_i hprune
        rw [bump_self] at hprune
        have hlt : c.visitCounts cur.currentAirport < k + 5 := by omega
        unfold Algo.mu Algo.credit
        dsimp only
        rw [List.length_append]
        by_cases hu : cur.currentAirport ∈ (g.map Algo.Flight.«from»).toFinset
        · have hcred := sum_credit_bump_lt (g.map Algo.Flight.«from»).toFinset
            (fun u => (Algo.adjOf g u).length) (k + 5) c.visitCounts
            cur.currentAirport hlt hu
          dsimp only at hcred
          have hle := expandP_length_le g lay cur
          omega
        · have hadj : Algo.adjOf g cur.currentAirport = [] := adjOfP_eq_nil g _ hu
          have hexp : Algo.expand g lay cur = [] := by
            unfold Algo.expand
            rw [hadj]
            rfl
          have hcred := sum_credit_bump_not_mem (g.map Algo.Flight.«from»).toFinset
            (fun u => (Algo.adjOf g u).length) (k + 5) c.visitCounts
            cur.currentAirport hu
          dsimp only at hcred
          rw [hexp]
          simp only [List.length_nil]
          omega

theorem stepS_decreases (adj : List (String × List Smart.Edge))
    (src dst req_date : String) (k : Nat) (c c' : Smart.Config)
    (h : Smart.step adj src dst req_date k c = some c') :
    Smart.mu adj k c' < Smart.mu adj k c := by
  unfold Smart.step at h
  split at h
  · exact absurd h (by simp)
  cases hpop : popMin (fun s => s.total_minutes) c.pq with
  | none => rw [hpop] at h; exact absurd h (by simp)
  | some pr =>
    obtain ⟨top, rest⟩ := pr
    rw [hpop] at h
    have hlen : c.pq.length = rest.length + 1 := by
      have := (popMin_perm _ hpop).length_eq
      simpa using this
    simp only [] at h
    split at h
    · injection h with h'
      subst h'
      unfold Smart.mu
      dsimp only
      omega
    · split at h
      · injection h with h'
        subst h'
        unfold Smart.mu
        dsimp only
        omega
      · injection h with h'
        subst h'
        rename_i hprune
        have hlt : c.visits top.current_node < k := by omega
        unfold Smart.mu Smart.credit
        dsimp only
        rw [List.length_append]
        by_cases hu : top.current_node ∈ (adj.map Prod.fst).toFinset
        · have hcred := sum_credit_bump_lt (adj.map Prod.fst).toFinset
            (fun u => (Smart.adjOf adj u).length) k c.visits
            top.current_node hlt hu
          dsimp only at hcred
          have hle := expandS_length_le adj src req_date top
          omega
        · have hadj : Smart.adjOf adj top.current_node = [] := adjOfS_eq_nil adj _ hu
          have hexp : Smart.expand adj src req_date top = [] := by
            unfold Smart.expand
            rw [hadj]
            rfl
          have hcred := sum_credit_bump_not_mem (adj.map Prod.fst).toFinset
            (fun u => (Smart.adjOf adj u).length) k c.visits
            top.current_node hu
          dsimp only at hcred
          rw [hexp]
          simp only [List.length_nil]
          omega

/-! ### Membership in expansions -/

theorem mem_adjOfP {g : List Algo.Flight} {u : String} {f : Algo.Flight} :
    f ∈ Algo.adjOf g u ↔ f ∈ g ∧ f.«from» = u := by
  unfold Algo.adjOf
  simp [List.mem_filter]

theorem mem_expandP {g : List Algo.Flight} {lay : Int}
    {cur child : Algo.SearchState} :
    child ∈ Algo.expand g lay cur ↔
      ∃ f, f ∈ Algo.adjOf g cur.currentAirport ∧ Algo.passes lay cur f ∧
        child = Algo.mkChild cur f := by
  unfold Algo.expand
  simp only [List.mem_map, List.mem_filter, decide_eq_true_eq]
  constructor
  · rintro ⟨f, ⟨hf, hp⟩, rfl⟩
    exact ⟨f, hf, hp, rfl⟩
  · rintro ⟨f, hf, hp, rfl⟩
    exact ⟨f, ⟨hf, hp⟩, rfl⟩

theorem adjOfS_subset {adj : List (String × List Smart.Edge)} {u : String}
    {e : Smart.Edge} (he : e ∈ Smart.adjOf adj u) : ∃ p ∈ adj, e ∈ p.2 := by
  unfold Smart.adjOf at he
  cases hf : adj.find? (fun p => decide (p.1 = u)) with
  | none =>
    rw [hf] at he
    simp at he
  | some p =>
    rw [hf] at he
    exact ⟨p, List.mem_of_find?_eq_some hf, he⟩

theorem mem_expandS {adj : List (String × List Smart.Edge)}
    {src req_date : String} {top child : Smart.PathState} :
    child ∈ Smart.expand adj src req_date top ↔
      ∃ e, e ∈ Smart.adjOf adj top.current_node ∧
        Smart.passes src req_date top e ∧ child = Smart.mkChild top e := by
  unfold Smart.expand
  simp only [List.mem_map, List.mem_filter, decide_eq_true_eq]
  constructor
  · rintro ⟨e, ⟨he, hp⟩, rfl⟩
    exact ⟨e, he, hp, rfl⟩
  · rintro ⟨e, he, hp, rfl⟩
    exact ⟨e, ⟨he, hp⟩, rfl⟩

/-! ### Result lists are bounded and sorted -/

/-- Loop invariant for the price variant: results sorted by total cost,
every result no dearer than anything still on the frontier, and the
result count strictly below `k` while the loop is live. -/
def SortInvP (k : Nat) (c : Algo.Config) : Prop :=
  List.Pairwise (fun a b => a.totalCost ≤ b.totalCost) c.results ∧
  (∀ r ∈ c.results, ∀ s ∈ c.pq, r.totalCost ≤ s.currentCost) ∧
  (c.halted = false → c.results.length < k) ∧
  (c.halted = true → c.results.length ≤ k)

theorem stepP_sortInv (g : List Algo.Flight) (e : String) (k : Nat) (lay : Int)
    (hg : ∀ f ∈ g, 0 ≤ f.cost) :
    ∀ c c', Algo.step g e k lay c = some c' → SortInvP k c → SortInvP k c' := by
  intro c c' h hinv
  obtain ⟨hpair, hlb, hlive, hdone⟩ := hinv
  unfold Algo.step at h
  split at h
  · exact absurd h (by simp)
  rename_i hhalt
  rw [Bool.not_eq_true] at hhalt
  cases hpop : popMin (fun s => s.currentCost) c.pq with
  | none =>
    rw [hpop] at h
    exact absurd h (by simp)
  | some pr =>
    obtain ⟨cur, rest⟩ := pr
    rw [hpop] at h
    have hperm := popMin_perm _ hpop
    have hcur_mem : cur ∈ c.pq := hperm.mem_iff.mpr (List.mem_cons_self _ _)
    have hrest_sub : ∀ s ∈ rest, s ∈ c.pq :=
      fun s hs => hperm.mem_iff.mpr (List.mem_cons_of_mem _ hs)
    have hmin := popMin_le _ hpop
    simp only [] at h
    split at h
    · injection h with h'
      subst h'
      have hlen : c.results.length < k := hlive hhalt
      refine ⟨?_, ?_, ?_, ?_⟩
      · rw [List.pairwise_append]
        refine ⟨hpair, List.pairwise_singleton _ _, ?_⟩
        intro r hr p hp
        rcases List.mem_singleton.mp hp with rfl
        exact hlb r hr cur hcur_mem
      · intro r hr s hs
        dsimp only at hs ⊢
        rcases List.mem_append.mp hr with hr | hr
        · exact hlb r hr s (hrest_sub s hs)
        · rcases List.mem_singleton.mp hr with rfl
          exact hmin s (hrest_sub s hs)
      · intro hfalse
        dsimp only at hfalse ⊢
        rw [decide_eq_false_iff_not] at hfalse
        simp only [List.length_append, List.length_singleton] at hfalse ⊢
        omega
      · intro htrue
        dsimp only
        simp only [List.length_append, List.length_singleton]
        omega
    · split at h
      · injection h with h'
        subst h'
        exact ⟨hpair, fun r hr s hs => hlb r hr s (hrest_sub s hs),
          fun _ => hlive hhalt, by simp⟩
      · injection h with h'
        subst h'
        refine ⟨hpair, ?_, fun _ => hlive hhalt, by simp⟩
        intro r hr s hs
        dsimp only at hs
        rcases List.mem_append.mp hs with hs | hs
        · exact hlb r hr s (hrest_sub s hs)
        · obtain ⟨f, hf, _, rfl⟩ := mem_expandP.mp hs
          have hfg : f ∈ g := (mem_adjOfP.mp hf).1
          have hc := hg f hfg
          have hrc : r.totalCost ≤ cur.currentCost := hlb r hr cur hcur_mem
          unfold Algo.mkChild
          dsimp only
          omega

/-- Loop invariant for the duration variant. -/
def SortInvS (k : Nat) (c : Smart.Config) : Prop :=
  List.Pairwise (fun a b => a.total_time ≤ b.total_time) c.results ∧
  (∀ r ∈ c.results, ∀ s ∈ c.pq, r.total_time ≤ s.total_minutes) ∧
  c.results.length ≤ k

theorem stepS_sortInv (adj : List (String × List Smart.Edge))
    (src dst req_date : String) (k : Nat)
    (ha : ∀ p ∈ adj, ∀ e ∈ p.2, 0 ≤ e.weight_minutes) :
    ∀ c c', Smart.step adj src dst req_date k c = some c' →
      SortInvS k c → SortInvS k c' := by
  intro c c' h hinv
  obtain ⟨hpair, hlb, hlen⟩ := hinv
  unfold Smart.step at h
  split at h
  · exact absurd h (by simp)
  rename_i hfull
  cases hpop : popMin (fun s => s.total_minutes) c.pq with
  | none =>
    rw [hpop] at h
    exact absurd h (by simp)
  | some pr =>
    obtain ⟨top, rest⟩ := pr
    rw [hpop] at h
    have hperm := popMin_perm _ hpop
    have htop_mem : top ∈ c.pq := hperm.mem_iff.mpr (List.mem_cons_self _ _)
    have hrest_sub : ∀ s ∈ rest, s ∈ c.pq :=
      fun s hs => hperm.mem_iff.mpr (List.mem_cons_of_mem _ hs)
    have hmin := popMin_le _ hpop
    simp only [] at h
    split at h
    · injection h with h'
      subst h'
      refine ⟨?_, ?_, ?_⟩
      · rw [List.pairwise_append]
        refine ⟨hpair, List.pairwise_singleton _ _, ?_⟩
        intro r hr p hp
        rcases List.mem_singleton.mp hp with rfl
        exact hlb r hr top htop_mem
      · intro r hr s hs
        dsimp only at hs ⊢
        rcases List.mem_append.mp hr with hr | hr
        · exact hlb r hr s (hrest_sub s hs)
        · rcases List.mem_singleton.mp hr with rfl
          exact hmin s (hrest_sub s hs)
      · dsimp only
        simp only [List.length_append, List.length_singleton]
        omega
    · split at h
      · injection h with h'
        subst h'
        exact ⟨hpair, fun r hr s hs => hlb r hr s (hrest_sub s hs), hlen⟩
      · injection h with h'
        subst h'
        refine ⟨hpair, ?_, hlen⟩
        intro r hr s hs
        dsimp only at hs
        rcases List.mem_append.mp hs with hs | hs
        · exact hlb r hr s (hrest_sub s hs)
        · obtain ⟨ed, hed, _, rfl⟩ := mem_expandS.mp hs
          obtain ⟨p, hp, hep⟩ := adjOfS_subset hed
          have hw := ha p hp ed hep
          have hrt : r.total_time ≤ top.total_minutes := hlb r hr top htop_mem
          unfold Smart.mkChild
          dsimp only
          by_cases hemp : top.history.isEmpty <;> simp only [hemp] <;> omega

/-- C1: for every valid graph (non-negative edge weights, per the data
model) and every valid query (`k ≥ 1`, per the boundary validation), the
list returned by each search variant has length at most `k` and is
sorted in ascending order of the accumulated weight (`totalCost` for the
price variant, `total_time` for the duration variant).  The duration
variant needs no bound on `k` because its loop condition checks the
result count before every pop. -/
theorem C1_results_bounded_and_sorted :
    (∀ (g : List Algo.Flight) (s e : String) (k : Nat) (lay : Int),
      (∀ f ∈ g, 0 ≤ f.cost) → 1 ≤ k →
      (Algo.getTopKPaths g s e k lay).length ≤ k ∧
      List.Pairwise (fun a b => a.totalCost ≤ b.totalCost)
        (Algo.getTopKPaths g s e k lay)) ∧
    (∀ (adj : List (String × List Smart.Edge)) (s d req_date : String)
        (k : Nat),
      (∀ p ∈ adj, ∀ e ∈ p.2, 0 ≤ e.weight_minutes) →
      (Smart.find_smart_routes adj s d req_date k).length ≤ k ∧
      List.Pairwise (fun a b => a.total_time ≤ b.total_time)
        (Smart.find_smart_routes adj s d req_date k)) := by
  constructor
  · intro g s e k lay hg hk
    have hinit : SortInvP k (Algo.initConfig s) := by
      refine ⟨List.Pairwise.nil, by simp [Algo.initConfig], ?_, ?_⟩
      · intro _
        simpa [Algo.initConfig] using hk
      · intro habs
        simp [Algo.initConfig] at habs
    have hfin := runOpt_inv (Algo.step g e k lay) (SortInvP k)
      (stepP_sortInv g e k lay hg) (Algo.mu g k (Algo.initConfig s))
      (Algo.initConfig s) hinit
    obtain ⟨hpair, _, hlive, hdone⟩ := hfin
    refine ⟨?_, hpair⟩
    cases hhalt : (runOpt (Algo.step g e k lay)
        (Algo.mu g k (Algo.initConfig s)) (Algo.initConfig s)).halted
    · exact le_of_lt (hlive hhalt)
    · exact hdone hhalt
  · intro adj s d req_date k ha
    have hinit : SortInvS k (Smart.initConfig s) := by
      exact ⟨List.Pairwise.nil, by simp [Smart.initConfig], by simp [Smart.initConfig]⟩
    have hfin := runOpt_inv (Smart.step adj s d req_date k) (SortInvS k)
      (stepS_sortInv adj s d req_date k ha) (Smart.mu adj k (Smart.initConfig s))
      (Smart.initConfig s) hinit
    exact ⟨hfin.2.2, hfin.1⟩

theorem C1_results_bounded_and_sorted_witness :
    ((Algo.getTopKPaths
        (Algo.addFlight (Algo.addFlight (Algo.addFlight [] "D1" "X" "Y" 100 0 60)
          "F1" "X" "Z" 40 0 60) "F2" "Z" "Y" 40 200 60) "X" "Y" 2 30).length ≤ 2 ∧
      List.Pairwise (fun a b => a.totalCost ≤ b.totalCost)
        (Algo.getTopKPaths
          (Algo.addFlight (Algo.addFlight (Algo.addFlight [] "D1" "X" "Y" 100 0 60)
            "F1" "X" "Z" 40 0 60) "F2" "Z" "Y" 40 200 60) "X" "Y" 2 30)) ∧
    ((Smart.find_smart_routes
        [("A", [{ destination := "B", weight_minutes := 60, flight_id := "eAB",
                  date := "d", dep_time := "01:00", arr_time := "02:00",
                  price := 10, airline := "Q" }])] "A" "B" "d" 3).length ≤ 3 ∧
      List.Pairwise (fun a b => a.total_time ≤ b.total_time)
        (Smart.find_smart_routes
          [("A", [{ destination := "B", weight_minutes := 60, flight_id := "eAB",
                    date := "d", dep_time := "01:00", arr_time := "02:00",
                    price := 10, airline := "Q" }])] "A" "B" "d" 3)) :=
  ⟨C1_results_bounded_and_sorted.1
      (Algo.addFlight (Algo.addFlight (Algo.addFlight [] "D1" "X" "Y" 100 0 60)
        "F1" "X" "Z" 40 0 60) "F2" "Z" "Y" 40 200 60) "X" "Y" 2 30
      (by decide) (by decide),
    C1_results_bounded_and_sorted.2
      [("A", [{ destination := "B", weight_minutes := 60, flight_id := "eAB",
                date := "d", dep_time := "01:00", arr_time := "02:00",
                price := 10, airline := "Q" }])] "A" "B" "d" 3 (by decide)⟩

/-! ### Node sequences of returned itineraries -/

/-- The node sequence of an itinerary: the query source followed by the
destination of each leg in order. -/
theorem chainSegments_map_to (prev : String) (h : List Smart.Edge) :
    (Smart.chainSegments prev h).map Smart.Segment.«to»
      = h.map Smart.Edge.destination := by
  induction h generalizing prev with
  | nil => rfl
  | cons e t ih => simp [Smart.chainSegments, ih]

/-- All occurrences of `src` in `l` form a contiguous initial block. -/
def sourceBlock (src : String) (l : List String) : Prop :=
  ∃ m rest, l = List.replicate m src ++ rest ∧ src ∉ rest

theorem sourceBlock_all_src {src : String} {l : List String}
    (h : sourceBlock src l) (hl : l.getLast? = some src) :
    ∃ m, l = List.replicate m src := by
  obtain ⟨m, rest, rfl, hns⟩ := h
  cases rest with
  | nil => exact ⟨m, by simp⟩
  | cons a t =>
    exfalso
    rw [List.getLast?_append_of_ne_nil _ (by simp)] at hl
    have hmem : src ∈ a :: t := by
      have : src ∈ (a :: t).getLast? := hl
      obtain ⟨hne, heq⟩ := List.mem_getLast?_eq_getLast this
      exact heq ▸ List.getLast_mem hne
    exact hns hmem

/-- Per-state invariant of the price variant: `visitedNodes` is exactly
the node sequence of the path so far, without repetition. -/
def StateNodesOK (start : String) (s : Algo.SearchState) : Prop :=
  s.visitedNodes = start :: s.pathHistory.map Algo.Flight.«to» ∧
  s.visitedNodes.Nodup

def NodesInvP (start : String) (c : Algo.Config) : Prop :=
  (∀ s ∈ c.pq, StateNodesOK start s) ∧
  (∀ r ∈ c.results, (start :: r.route.map Algo.Flight.«to»).Nodup)

theorem stepP_nodesInv (g : List Algo.Flight) (start e : String) (k : Nat)
    (lay : Int) :
    ∀ c c', Algo.step g e k lay c = some c' →
      NodesInvP start c → NodesInvP start c' := by
  intro c c' h hinv
  obtain ⟨hpq, hres⟩ := hinv
  unfold Algo.step at h
  split at h
  · exact absurd h (by simp)
  cases hpop : popMin (fun s => s.currentCost) c.pq with
  | none =>
    rw [hpop] at h
    exact absurd h (by simp)
  | some pr =>
    obtain ⟨cur, rest⟩ := pr
    rw [hpop] at h
    have hperm := popMin_perm _ hpop
    have hcur : StateNodesOK start cur :=
      hpq cur (hperm.mem_iff.mpr (List.mem_cons_self _ _))
    have hrest : ∀ s ∈ rest, StateNodesOK start s :=
      fun s hs => hpq s (hperm.mem_iff.mpr (List.mem_cons_of_mem _ hs))
    simp only [] at h
    split at h
    · injection h with h'
      subst h'
      refine ⟨fun s hs => hrest s hs, ?_⟩
      intro r hr
      dsimp only at hr
      rcases List.mem_append.mp hr with hr | hr
      · exact hres r hr
      · rcases List.mem_singleton.mp hr with rfl
        unfold Algo.finalize
        dsimp only
        rw [← hcur.1]
        exact hcur.2
    · split at h
      · injection h with h'
        subst h'
        exact ⟨fun s hs => hrest s hs, hres⟩
      · injection h with h'
        subst h'
        refine ⟨?_, hres⟩
        intro s hs
        dsimp only at hs
        rcases List.mem_append.mp hs with hs | hs
        · exact hrest s hs
        · obtain ⟨f, _, hp, rfl⟩ := mem_expandP.mp hs
          obtain ⟨hto, _⟩ := hp
          constructor
          · unfold Algo.mkChild
            dsimp only
            rw [hcur.1, List.map_append]
            simp
          · unfold Algo.mkChild
            dsimp only
            simp [List.nodup_append, hcur.2, hto]

/-- Per-state invariant of the duration variant: the current node is the
last of the node sequence, and the source only occurs in an initial
block of that sequence. -/
def StateNodesOKS (src : String) (s : Smart.PathState) : Prop :=
  (src :: s.history.map Smart.Edge.destination).getLast? = some s.current_node ∧
  sourceBlock src (src :: s.history.map Smart.Edge.destination)

def NodesInvS (src : String) (c : Smart.Config) : Prop :=
  (∀ s ∈ c.pq, StateNodesOKS src s) ∧
  (∀ r ∈ c.results, sourceBlock src (src :: r.segments.map Smart.Segment.«to»))

theorem stepS_nodesInv (adj : List (String × List Smart.Edge))
    (src dst req_date : String) (k : Nat) :
    ∀ c c', Smart.step adj src dst req_date k c = some c' →
      NodesInvS src c → NodesInvS src c' := by
  intro c c' h hinv
  obtain ⟨hpq, hres⟩ := hinv
  unfold Smart.step at h
  split at h
  · exact absurd h (by simp)
  cases hpop : popMin (fun s => s.total_minutes) c.pq with
  | none =>
    rw [hpop] at h
    exact absurd h (by simp)
  | some pr =>
    obtain ⟨top, rest⟩ := pr
    rw [hpop] at h
    have hperm := popMin_perm _ hpop
    have htop : StateNodesOKS src top :=
      hpq top (hperm.mem_iff.mpr (List.mem_cons_self _ _))
    have hrest : ∀ s ∈ rest, StateNodesOKS src s :=
      fun s hs => hpq s (hperm.mem_iff.mpr (List.mem_cons_of_mem _ hs))
    simp only [] at h
    split at h
    · injection h with h'
      subst h'
      refine ⟨fun s hs => hrest s hs, ?_⟩
      intro r hr
      dsimp only at hr
      rcases List.mem_append.mp hr with hr | hr
      · exact hres r hr
      · rcases List.mem_singleton.mp hr with rfl
        unfold Smart.finalizeRoute
        dsimp only
        rw [chainSegments_map_to]
        exact htop.2
    · split at h
      · injection h with h'
        subst h'
        exact ⟨fun s hs => hrest s hs, hres⟩
      · injection h with h'
        subst h'
        refine ⟨?_, hres⟩
        intro s hs
        dsimp only at hs
        rcases List.mem_append.mp hs with hs | hs
        · exact hrest s hs
        · obtain ⟨ed, _, hp, rfl⟩ := mem_expandS.mp hs
          obtain ⟨_, hcyc, _⟩ := hp
          have hnodes : src :: (Smart.mkChild top ed).history.map
                Smart.Edge.destination
              = (src :: top.history.map Smart.Edge.destination)
                  ++ [ed.destination] := by
            unfold Smart.mkChild
            dsimp only
            rw [List.map_append]
            rfl
          constructor
          · unfold Smart.mkChild
            dsimp only
            rw [show src :: (top.history ++ [ed]).map Smart.Edge.destination
                = (src :: top.history.map Smart.Edge.destination)
                    ++ [ed.destination] from by rw [List.map_append]; rfl]
            exact List.getLast?_concat _
          · rw [hnodes]
            by_cases hd : ed.destination = src
            · have hor : top.current_node = src ∨ top.history = [] := by
                by_cases hu : top.current_node = src
                · exact Or.inl hu
                · by_cases hh : top.history = []
                  · exact Or.inr hh
                  · exact absurd ⟨hu, hh, hd⟩ hcyc
              have hlast : (src :: top.history.map
                  Smart.Edge.destination).getLast? = some src := by
                rcases hor with hu | hh
                · rw [htop.1, hu]
                · rw [hh]
                  rfl
              obtain ⟨m, hm⟩ := sourceBlock_all_src htop.2 hlast
              rw [hm, hd, ← List.replicate_succ']
              exact ⟨m + 1, [], by simp, by simp⟩
            · obtain ⟨m, restl, hrl, hns⟩ := htop.2
              refine ⟨m, restl ++ [ed.destination], ?_, ?_⟩
              · rw [hrl, List.append_assoc]
              · simp only [List.mem_append, List.mem_singleton]
                rintro (hin | rfl)
                · exact hns hin
                · exact hd rfl

/-- C2 as stated is false: the duration variant's cycle check only
prevents edges taken away from the source from returning to the source.
On the concrete date-matching graph `A→B`, `B→C`, `B→D`, `C→B` the
query `(A, D, k = 2)` returns as its second result the itinerary
`A→B→C→B→D`, in which node `B` appears twice. -/
theorem C2_counterexample :
    ∃ r ∈ Smart.find_smart_routes
      [("A", [{ destination := "B", weight_minutes := 60, flight_id := "eAB",
                date := "d", dep_time := "01:00", arr_time := "02:00",
                price := 10, airline := "Q" }]),
       ("B", [{ destination := "C", weight_minutes := 60, flight_id := "eBC",
                date := "d", dep_time := "03:00", arr_time := "04:00",
                price := 10, airline := "Q" },
              { destination := "D", weight_minutes := 600, flight_id := "eBD",
                date := "d", dep_time := "07:00", arr_time := "08:00",
                price := 10, airline := "Q" }]),
       ("C", [{ destination := "B", weight_minutes := 60, flight_id := "eCB",
                date := "d", dep_time := "05:00", arr_time := "06:00",
                price := 10, airline := "Q" }])] "A" "D" "d" 2,
      ¬ ("A" :: r.segments.map Smart.Segment.«to»).Nodup := by
  decide

/-- C2 amended: the price variant is loop-free — in every returned
path the node sequence (source, then each leg's destination) has no
repeated element.  The duration variant guarantees only that the source
cannot be re-entered once left: in every returned path the occurrences
of the source form a contiguous initial block of the node sequence;
other nodes may repeat. -/
theorem C2_amended_loop_freedom :
    (∀ (g : List Algo.Flight) (s e : String) (k : Nat) (lay : Int),
      ∀ r ∈ Algo.getTopKPaths g s e k lay,
        (s :: r.route.map Algo.Flight.«to»).Nodup) ∧
    (∀ (adj : List (String × List Smart.Edge)) (s d req_date : String)
        (k : Nat),
      ∀ r ∈ Smart.find_smart_routes adj s d req_date k,
        sourceBlock s (s :: r.segments.map Smart.Segment.«to»)) := by
  constructor
  · intro g s e k lay r hr
    have hinit : NodesInvP s (Algo.initConfig s) := by
      constructor
      · intro st hst
        rcases List.mem_singleton.mp hst with rfl
        exact ⟨rfl, by simp [Algo.initState]⟩
      · intro r hr
        simp [Algo.initConfig] at hr
    have hfin := runOpt_inv (Algo.step g e k lay) (NodesInvP s)
      (stepP_nodesInv g s e k lay) (Algo.mu g k (Algo.initConfig s))
      (Algo.initConfig s) hinit
    exact hfin.2 r hr
  · intro adj s d req_date k r hr
    have hinit : NodesInvS s (Smart.initConfig s) := by
      constructor
      · intro st hst
        rcases List.mem_singleton.mp hst with rfl
        exact ⟨rfl, 1, [], by simp, by simp⟩
      · intro r hr
        simp [Smart.initConfig] at hr
    have hfin := runOpt_inv (Smart.step adj s d req_date k) (NodesInvS s)
      (stepS_nodesInv adj s d req_date k) (Smart.mu adj k (Smart.initConfig s))
      (Smart.initConfig s) hinit
    exact hfin.2 r hr

theorem C2_amended_loop_freedom_witness :
    (("X" :: (Algo.PathResult.mk 0 (-1) []).route.map Algo.Flight.«to»).Nodup) ∧
    sourceBlock "X"
      ("X" :: (Smart.Route.mk 0 (-1) [] 0).segments.map Smart.Segment.«to») :=
  ⟨C2_amended_loop_freedom.1 [] "X" "X" 1 0 _ (by decide),
    C2_amended_loop_freedom.2 [] "X" "X" "d" 1 _ (by decide)⟩

/-! ### Temporal feasibility of returned itineraries -/

/-- Per-state invariant of the price variant: the history is drawn from
the graph, consecutive legs respect the layover, and `arrivalTime` is
the sentinel −1 exactly until the first leg, then the last leg's
arrival. -/
def StateTimeOK (g : List Algo.Flight) (lay : Int) (s : Algo.SearchState) :
    Prop :=
  (∀ f ∈ s.pathHistory, f ∈ g) ∧
  List.Chain' (fun a b => a.arrTime + lay ≤ b.depTime) s.pathHistory ∧
  (s.pathHistory.getLast? = none → s.arrivalTime = -1) ∧
  (∀ f, s.pathHistory.getLast? = some f → s.arrivalTime = f.arrTime)

def TimeInvP (g : List Algo.Flight) (lay : Int) (c : Algo.Config) : Prop :=
  (∀ s ∈ c.pq, StateTimeOK g lay s) ∧
  (∀ r ∈ c.results,
    List.Chain' (fun a b => a.arrTime + lay ≤ b.depTime) r.route)

theorem stepP_timeInv (g : List Algo.Flight) (e : String) (k : Nat) (lay : Int)
    (hval : ∀ f ∈ g, 0 ≤ f.depTime ∧ f.depTime ≤ f.arrTime) :
    ∀ c c', Algo.step g e k lay c = some c' →
      TimeInvP g lay c → TimeInvP g lay c' := by
  intro c c' h hinv
  obtain ⟨hpq, hres⟩ := hinv
  unfold Algo.step at h
  split at h
  · exact absurd h (by simp)
  cases hpop : popMin (fun s => s.currentCost) c.pq with
  | none =>
    rw [hpop] at h
    exact absurd h (by simp)
  | some pr =>
    obtain ⟨cur, rest⟩ := pr
    rw [hpop] at h
    have hperm := popMin_perm _ hpop
    have hcur : StateTimeOK g lay cur :=
      hpq cur (hperm.mem_iff.mpr (List.mem_cons_self _ _))
    have hrest : ∀ s ∈ rest, StateTimeOK g lay s :=
      fun s hs => hpq s (hperm.mem_iff.mpr (List.mem_cons_of_mem _ hs))
    simp only [] at h
    split at h
    · injection h with h'
      subst h'
      refine ⟨fun s hs => hrest s hs, ?_⟩
      intro r hr
      dsimp only at hr
      rcases List.mem_append.mp hr with hr | hr
      · exact hres r hr
      · rcases List.mem_singleton.mp hr with rfl
        exact hcur.2.1
    · split at h
      · injection h with h'
        subst h'
        exact ⟨fun s hs => hrest s hs, hres⟩
      · injection h with h'
        subst h'
        refine ⟨?_, hres⟩
        intro s hs
        dsimp only at hs
        rcases List.mem_append.mp hs with hs | hs
        · exact hrest s hs
        · obtain ⟨f, hf, hp, rfl⟩ := mem_expandP.mp hs
          obtain ⟨_, htime⟩ := hp
          have hfg : f ∈ g := (mem_adjOfP.mp hf).1
          refine ⟨?_, ?_, ?_, ?_⟩
          · unfold Algo.mkChild
            dsimp only
            intro x hx
            rcases List.mem_append.mp hx with hx | hx
            · exact hcur.1 x hx
            · rcases List.mem_singleton.mp hx with rfl
              exact hfg
          · unfold Algo.mkChild
            dsimp only
            rw [List.chain'_append]
            refine ⟨hcur.2.1, List.chain'_singleton _, ?_⟩
            intro x hx y hy
            simp only [List.head?_cons, Option.mem_def, Option.some.injEq] at hy
            subst hy
            rw [Option.mem_def] at hx
            have harr : cur.arrivalTime = x.arrTime := hcur.2.2.2 x hx
            have hxmem : x ∈ cur.pathHistory := by
              have : x ∈ cur.pathHistory.getLast? := hx
              obtain ⟨hne, heq⟩ := List.mem_getLast?_eq_getLast this
              exact heq ▸ List.getLast_mem hne
            have hxg := hval x (hcur.1 x hxmem)
            rcases htime with hsent | hok
            · omega
            · omega
          · unfold Algo.mkChild
            dsimp only
            intro habs
            rw [List.getLast?_concat] at habs
            cases habs
          · unfold Algo.mkChild
            dsimp only
            intro f' hf'
            rw [List.getLast?_concat] at hf'
            injection hf' with hf'
            rw [← hf']

/-- Per-state invariant of the duration variant: consecutive legs
respect the connection check (the next departure is not lexically
earlier than the previous arrival). -/
def StateTimeOKS (s : Smart.PathState) : Prop :=
  List.Chain' (fun a b => cppStrLt b.dep_time a.arr_time = false) s.history

def TimeInvS (c : Smart.Config) : Prop :=
  (∀ s ∈ c.pq, StateTimeOKS s) ∧
  (∀ r ∈ c.results,
    List.Chain' (fun a b => cppStrLt b.dep a.arr = false) r.segments)

theorem chainSegments_chain' (prev : String) (h : List Smart.Edge)
    (hc : List.Chain' (fun a b => cppStrLt b.dep_time a.arr_time = false) h) :
    List.Chain' (fun a b => cppStrLt b.dep a.arr = false)
      (Smart.chainSegments prev h) := by
  induction h generalizing prev with
  | nil => simp [Smart.chainSegments]
  | cons e t ih =>
    specialize ih e.destination
    cases t with
    | nil => simp [Smart.chainSegments]
    | cons e2 t2 =>
      rw [List.chain'_cons] at hc
      have htail := ih hc.2
      exact List.Chain'.cons hc.1 htail

theorem stepS_timeInv (adj : List (String × List Smart.Edge))
    (src dst req_date : String) (k : Nat) :
    ∀ c c', Smart.step adj src dst req_date k c = some c' →
      TimeInvS c → TimeInvS c' := by
  intro c c' h hinv
  obtain ⟨hpq, hres⟩ := hinv
  unfold Smart.step at h
  split at h
  · exact absurd h (by simp)
  cases hpop : popMin (fun s => s.total_minutes) c.pq with
  | none =>
    rw [hpop] at h
    exact absurd h (by simp)
  | some pr =>
    obtain ⟨top, rest⟩ := pr
    rw [hpop] at h
    have hperm := popMin_perm _ hpop
    have htop : StateTimeOKS top :=
      hpq top (hperm.mem_iff.mpr (List.mem_cons_self _ _))
    have hrest : ∀ s ∈ rest, StateTimeOKS s :=
      fun s hs => hpq s (hperm.mem_iff.mpr (List.mem_cons_of_mem _ hs))
    simp only [] at h
    split at h
    · injection h with h'
      subst h'
      refine ⟨fun s hs => hrest s hs, ?_⟩
      intro r hr
      dsimp only at hr
      rcases List.mem_append.mp hr with hr | hr
      · exact hres r hr
      · rcases List.mem_singleton.mp hr with rfl
        unfold Smart.finalizeRoute
        dsimp only
        exact chainSegments_chain' src top.history htop
    · split at h
      · injection h with h'
        subst h'
        exact ⟨fun s hs => hrest s hs, hres⟩
      · injection h with h'
        subst h'
        refine ⟨?_, hres⟩
        intro s hs
        dsimp only at hs
        rcases List.mem_append.mp hs with hs | hs
        · exact hrest s hs
        · obtain ⟨ed, _, hp, rfl⟩ := mem_expandS.mp hs
          obtain ⟨_, _, hconn⟩ := hp
          unfold StateTimeOKS Smart.mkChild
          dsimp only
          rw [List.chain'_append]
          refine ⟨htop, List.chain'_singleton _, ?_⟩
          intro x hx y hy
          simp only [List.head?_cons, Option.mem_def, Option.some.injEq] at hy
          subst hy
          rw [Option.mem_def] at hx
          rw [hx] at hconn
          exact hconn

/-- C3: in every returned itinerary the layover requirement holds for
every non-first leg and is not applied to the first leg.  For the price
variant each later leg departs at least `minLayoverMins` after the
previous leg's arrival (assuming the data-model invariant
`0 ≤ departure ≤ arrival`, which keeps the −1 sentinel unambiguous).
The duration variant takes no layover option: its configured minimum
layover is zero, enforced as `departure not lexically earlier than the
previous arrival` on "HH:MM" strings (its fixed 60-minute figure enters
only the accumulated weight, not feasibility). -/
theorem C3_layover_feasibility :
    (∀ (g : List Algo.Flight) (s e : String) (k : Nat) (lay : Int),
      (∀ f ∈ g, 0 ≤ f.depTime ∧ f.depTime ≤ f.arrTime) →
      ∀ r ∈ Algo.getTopKPaths g s e k lay,
        List.Chain' (fun a b => a.arrTime + lay ≤ b.depTime) r.route) ∧
    (∀ (adj : List (String × List Smart.Edge)) (s d req_date : String)
        (k : Nat),
      ∀ r ∈ Smart.find_smart_routes adj s d req_date k,
        List.Chain' (fun a b => cppStrLt b.dep a.arr = false) r.segments) := by
  constructor
  · intro g s e k lay hval r hr
    have hinit : TimeInvP g lay (Algo.initConfig s) := by
      constructor
      · intro st hst
        rcases List.mem_singleton.mp hst with rfl
        refine ⟨by simp [Algo.initState], by simp [Algo.initState], ?_, ?_⟩
        · intro _
          rfl
        · intro f hf
          simp [Algo.initState] at hf
      · intro r hr
        simp [Algo.initConfig] at hr
    have hfin := runOpt_inv (Algo.step g e k lay) (TimeInvP g lay)
      (stepP_timeInv g e k lay hval) (Algo.mu g k (Algo.initConfig s))
      (Algo.initConfig s) hinit
    exact hfin.2 r hr
  · intro adj s d req_date k r hr
    have hinit : TimeInvS (Smart.initConfig s) := by
      constructor
      · intro st hst
        rcases List.mem_singleton.mp hst with rfl
        simp [StateTimeOKS]
      · intro r hr
        simp [Smart.initConfig] at hr
    have hfin := runOpt_inv (Smart.step adj s d req_date k) TimeInvS
      (stepS_timeInv adj s d req_date k) (Smart.mu adj k (Smart.initConfig s))
      (Smart.initConfig s) hinit
    exact hfin.2 r hr

theorem C3_layover_feasibility_witness :
    List.Chain' (fun a b => a.arrTime + 30 ≤ b.depTime)
      (Algo.PathResult.mk 80 260
        [Algo.Flight.mk "F1" "X" "Z" 40 0 60,
         Algo.Flight.mk "F2" "Z" "Y" 40 200 260]).route ∧
    List.Chain' (fun a b => cppStrLt b.dep a.arr = false)
      (Smart.Route.mk 0 (-1) [] 0).segments :=
  ⟨C3_layover_feasibility.1
      (Algo.addFlight (Algo.addFlight (Algo.addFlight [] "D1" "X" "Y" 100 0 60)
        "F1" "X" "Z" 40 0 60) "F2" "Z" "Y" 40 200 60) "X" "Y" 2 30
      (by decide) _ (by decide),
    C3_layover_feasibility.2 [] "X" "X" "d" 1 _ (by decide)⟩

/-! ### Child-state weight accounting -/

/-- C4 as stated is false for the duration variant: deriving a child
from a parent whose itinerary is non-empty adds a fixed 60-minute
connection penalty on top of the leg's duration.  Concretely, expanding
a parent with accumulated weight 100 over a 30-minute leg yields a
child of weight 190, not 100 + 30. -/
theorem C4_counterexample :
    (Smart.expand
        [("B", [{ destination := "C", weight_minutes := 30, flight_id := "e1",
                  date := "d", dep_time := "03:00", arr_time := "04:00",
                  price := 5, airline := "Q" }])] "A" "d"
        { total_minutes := 100, current_node := "B",
          history := [{ destination := "B", weight_minutes := 60,
                        flight_id := "e0", date := "d", dep_time := "01:00",
                        arr_time := "02:00", price := 5,
                        airline := "Q" }] }).map Smart.PathState.total_minutes
      = [190] ∧ ((190 : Int) ≠ 100 + 30) := by
  decide

/-- C4 amended: every child derived during expansion extends the parent
itinerary by exactly the one leg expanded, and its accumulated weight is
the parent's weight plus that leg's contribution — exactly the leg's
price in the price variant, and the leg's duration in minutes plus a
fixed 60-minute connection penalty for non-first legs in the duration
variant. -/
theorem C4_amended_child_weight :
    (∀ (g : List Algo.Flight) (lay : Int) (cur child : Algo.SearchState),
      child ∈ Algo.expand g lay cur →
      ∃ f ∈ Algo.adjOf g cur.currentAirport,
        child.pathHistory = cur.pathHistory ++ [f] ∧
        child.currentCost = cur.currentCost + f.cost) ∧
    (∀ (adj : List (String × List Smart.Edge)) (src req_date : String)
        (top child : Smart.PathState),
      child ∈ Smart.expand adj src req_date top →
      ∃ e ∈ Smart.adjOf adj top.current_node,
        child.history = top.history ++ [e] ∧
        child.total_minutes = top.total_minutes + e.weight_minutes +
          (if top.history.isEmpty then 0 else 60)) := by
  constructor
  · intro g lay cur child hc
    obtain ⟨f, hf, _, rfl⟩ := mem_expandP.mp hc
    exact ⟨f, hf, rfl, rfl⟩
  · intro adj src req_date top child hc
    obtain ⟨e, he, _, rfl⟩ := mem_expandS.mp hc
    exact ⟨e, he, rfl, rfl⟩

theorem C4_amended_child_weight_witness :
    ∃ f ∈ Algo.adjOf [Algo.Flight.mk "F" "X" "Y" 25 0 9]
        (Algo.initState "X").currentAirport,
      (Algo.mkChild (Algo.initState "X")
          (Algo.Flight.mk "F" "X" "Y" 25 0 9)).pathHistory
        = (Algo.initState "X").pathHistory ++ [f] ∧
      (Algo.mkChild (Algo.initState "X")
          (Algo.Flight.mk "F" "X" "Y" 25 0 9)).currentCost
        = (Algo.initState "X").currentCost + f.cost :=
  C4_amended_child_weight.1 [Algo.Flight.mk "F" "X" "Y" 25 0 9] 0
    (Algo.initState "X")
    (Algo.mkChild (Algo.initState "X") (Algo.Flight.mk "F" "X" "Y" 25 0 9))
    (by decide)

/-! ### The duration-string parser -/

theorem cppFind_eq_none {c : Char} : ∀ {l : List Char},
    Smart.cppFind c l = none ↔ c ∉ l
  | [] => by simp [Smart.cppFind]
  | x :: t => by
    simp only [Smart.cppFind]
    by_cases hx : x = c
    · simp [hx]
    · rw [if_neg hx, Option.map_eq_none']
      rw [cppFind_eq_none]
      have hcx : ¬ (c = x) := fun hEq => hx hEq.symm
      simp [List.mem_cons, hcx]

theorem cppFind_append (c : Char) (l1 l2 : List Char) (h : c ∉ l1) :
    Smart.cppFind c (l1 ++ c :: l2) = some l1.length := by
  induction l1 with
  | nil => simp [Smart.cppFind]
  | cons a t ih =>
    simp only [List.cons_append, Smart.cppFind]
    have ha : a ≠ c := fun hEq => h (hEq ▸ List.mem_cons_self a t)
    rw [if_neg ha]
    simp only [List.append_eq]
    rw [ih (fun hm => h (List.mem_cons_of_mem a hm))]
    rfl

theorem isDigit_not_space {c : Char} (h : c.isDigit = true) :
    Smart.isCppSpace c = false := by
  unfold Smart.isCppSpace
  have h1 : c ≠ ' ' := by rintro rfl; revert h; decide
  have h2 : c ≠ '\t' := by rintro rfl; revert h; decide
  have h3 : c ≠ '\n' := by rintro rfl; revert h; decide
  have h4 : c ≠ Char.ofNat 11 := by rintro rfl; revert h; decide
  have h5 : c ≠ Char.ofNat 12 := by rintro rfl; revert h; decide
  have h6 : c ≠ '\r' := by rintro rfl; revert h; decide
  simp [h1, h2, h3, h4, h5, h6]

/-- `std::stoi` on a non-empty all-digit string within `int` range
returns its value. -/
theorem stoiOpt_digits (ds : List Char) (hne : ds ≠ [])
    (hd : ∀ c ∈ ds, c.isDigit = true) (hb : Smart.digitsVal ds ≤ 2147483647) :
    Smart.stoiOpt ds = some ((Smart.digitsVal ds : Int)) := by
  obtain ⟨c0, t, rfl⟩ := List.exists_cons_of_ne_nil hne
  have hc0 : c0.isDigit = true := hd c0 (List.mem_cons_self _ _)
  have hnspace : Smart.isCppSpace c0 = false := isDigit_not_space hc0
  have hminus : c0 ≠ '-' := by rintro rfl; revert hc0; decide
  have hplus : c0 ≠ '+' := by rintro rfl; revert hc0; decide
  have hsplit : Smart.splitSign (c0 :: t) = (1, c0 :: t) := by
    simp only [Smart.splitSign]
    rw [if_neg hminus, if_neg hplus]
  have hdw : List.dropWhile Smart.isCppSpace (c0 :: t) = c0 :: t := by
    rw [List.dropWhile_cons, hnspace]
    simp
  simp only [Smart.stoiOpt]
  rw [hdw, hsplit]
  dsimp only
  rw [List.takeWhile_eq_self_iff.mpr hd]
  rw [if_neg (by simp)]
  have h0 : (0 : Int) ≤ (Smart.digitsVal (c0 :: t) : Int) := Int.natCast_nonneg _
  have hle : (Smart.digitsVal (c0 :: t) : Int) ≤ 2147483647 := by exact_mod_cast hb
  rw [if_neg (by omega)]
  rw [one_mul]

/-- C5 as stated is false: on an input with no hour marker the parser
returns 0, not the 60-minute default — e.g. `parse_duration_string "45"`
is 0. -/
theorem C5_counterexample :
    Smart.parse_duration_string ['4', '5'] = 0 ∧
    Smart.parse_duration_string ['4', '5'] ≠ 60 := by
  decide

/-- C5 amended: the parser returns 0 when the hour marker `'h'` is
absent; it returns the 60-minute fallback when `'h'` is present but
`stoi` fails on the text before it (the thrown exception is caught);
and on a well-formed `"Xh Ym"` — digit strings `X` and `Y` within
`int` range — it returns `X * 60 + Y` minutes. -/
theorem C5_amended_parse_duration :
    (∀ dur : List Char, 'h' ∉ dur → Smart.parse_duration_string dur = 0) ∧
    (∀ (dur : List Char) (h_pos : Nat), Smart.cppFind 'h' dur = some h_pos →
      Smart.stoiOpt (dur.take h_pos) = none →
      Smart.parse_duration_string dur = 60) ∧
    (∀ hs ms : List Char, hs ≠ [] → ms ≠ [] →
      (∀ c ∈ hs, c.isDigit = true) → (∀ c ∈ ms, c.isDigit = true) →
      Smart.digitsVal hs ≤ 2147483647 → Smart.digitsVal ms ≤ 2147483647 →
      Smart.parse_duration_string (hs ++ ('h' :: ' ' :: (ms ++ ['m'])))
        = (Smart.digitsVal hs : Int) * 60 + (Smart.digitsVal ms : Int)) := by
  refine ⟨?_, ?_, ?_⟩
  · intro dur hmem
    unfold Smart.parse_duration_string
    rw [cppFind_eq_none.mpr hmem]
  · intro dur h_pos hfind hstoi
    unfold Smart.parse_duration_string
    rw [hfind]
    dsimp only
    rw [hstoi]
  · intro hs ms hhs hms hdh hdm hbh hbm
    have hhd : 'h' ∉ hs := fun hm => by
      have := hdh _ hm
      revert this
      decide
    have hsd : ' ' ∉ hs := fun hm => by
      have := hdh _ hm
      revert this
      decide
    have hmd : 'm' ∉ hs := fun hm => by
      have := hdh _ hm
      revert this
      decide
    have hmsd : 'm' ∉ ms := fun hm => by
      have := hdm _ hm
      revert this
      decide
    have hfh : Smart.cppFind 'h' (hs ++ ('h' :: ' ' :: (ms ++ ['m'])))
        = some hs.length := cppFind_append 'h' hs (' ' :: (ms ++ ['m'])) hhd
    have hfs : Smart.cppFind ' ' (hs ++ ('h' :: ' ' :: (ms ++ ['m'])))
        = some (hs.length + 1) := by
      have hsplit : hs ++ ('h' :: ' ' :: (ms ++ ['m']))
          = (hs ++ ['h']) ++ ' ' :: (ms ++ ['m']) := by simp
      rw [hsplit]
      have := cppFind_append ' ' (hs ++ ['h']) (ms ++ ['m'])
        (by
          simp only [List.mem_append, List.mem_singleton]
          rintro (hm | hm)
          · exact hsd hm
          · cases hm)
      simpa using this
    have hfm : Smart.cppFind 'm' (hs ++ ('h' :: ' ' :: (ms ++ ['m'])))
        = some (hs.length + 1 + 1 + ms.length) := by
      have hsplit : hs ++ ('h' :: ' ' :: (ms ++ ['m']))
          = (hs ++ 'h' :: ' ' :: ms) ++ 'm' :: [] := by simp
      rw [hsplit]
      have := cppFind_append 'm' (hs ++ 'h' :: ' ' :: ms) []
        (by
          simp only [List.mem_append, List.mem_cons]
          rintro (hm | hm | hm | hm)
          · exact hmd hm
          · cases hm
          · cases hm
          · exact hmsd hm)
      simp only [List.length_append, List.length_cons] at this ⊢
      rw [this]
      congr 1
      omega
    have htake : (hs ++ ('h' :: ' ' :: (ms ++ ['m']))).take hs.length = hs :=
      List.take_left hs ('h' :: ' ' :: (ms ++ ['m']))
    have hdropEq : (hs ++ ('h' :: ' ' :: (ms ++ ['m']))).drop (hs.length + 1 + 1)
        = ms ++ ['m'] := by
      have hsplit : hs ++ ('h' :: ' ' :: (ms ++ ['m']))
          = (hs ++ ['h', ' ']) ++ (ms ++ ['m']) := by simp
      rw [hsplit, show hs.length + 1 + 1 = (hs ++ ['h', ' ']).length from by
        simp]
      exact List.drop_left _ _
    have hlen : Smart.substrLen (hs.length + 1) (hs.length + 1 + 1 + ms.length)
        (hs ++ ('h' :: ' ' :: (ms ++ ['m']))).length = ms.length := by
      unfold Smart.substrLen
      rw [if_pos (by omega)]
      omega
    unfold Smart.parse_duration_string
    rw [hfh]
    dsimp only
    rw [htake, stoiOpt_digits hs hhs hdh hbh]
    dsimp only
    rw [hfs, hfm]
    dsimp only
    rw [hlen, hdropEq, List.take_left, stoiOpt_digits ms hms hdm hbm]

theorem C5_amended_parse_duration_witness :
    Smart.parse_duration_string ['4', '5'] = 0 ∧
    Smart.parse_duration_string ['x', 'h'] = 60 ∧
    Smart.parse_duration_string (['2'] ++ ('h' :: ' ' :: (['1', '5'] ++ ['m'])))
      = (Smart.digitsVal ['2'] : Int) * 60 + (Smart.digitsVal ['1', '5'] : Int) :=
  ⟨C5_amended_parse_duration.1 ['4', '5'] (by decide),
    C5_amended_parse_duration.2.1 ['x', 'h'] 1 (by decide) (by decide),
    C5_amended_parse_duration.2.2 ['2'] ['1', '5'] (by decide) (by decide)
      (by decide) (by decide) (by decide) (by decide)⟩

/-! ### Atomicity of the admin insert operations -/

/-- C10: `add_airport` and `add_flight` are atomic on duplicates.  If
the store already holds a record with the same key (airport code,
flight id), the call returns `false` and leaves the whole database
state — in-memory document and saved file alike — unchanged; otherwise
it appends exactly the new record, persists the updated document, and
returns `true`. -/
theorem C10_add_operations_atomic :
    (∀ (π φ : Type) (apt : Store.AirportRec π) (db : Store.DB π φ),
      ((∃ a ∈ db.data.airports.getD [], a.code = apt.code) →
        Store.add_airport apt db = (false, db)) ∧
      ((∀ a ∈ db.data.airports.getD [], a.code ≠ apt.code) →
        Store.add_airport apt db
          = (true,
              { data := { db.data with
                  airports := some (db.data.airports.getD [] ++ [apt]) },
                file := { db.data with
                  airports := some (db.data.airports.getD [] ++ [apt]) } }))) ∧
    (∀ (π φ : Type) (fl : Store.FlightRec φ) (db : Store.DB π φ),
      ((∃ a ∈ db.data.flights.getD [], a.id = fl.id) →
        Store.add_flight fl db = (false, db)) ∧
      ((∀ a ∈ db.data.flights.getD [], a.id ≠ fl.id) →
        Store.add_flight fl db
          = (true,
              { data := { db.data with
                  flights := some (db.data.flights.getD [] ++ [fl]) },
                file := { db.data with
                  flights := some (db.data.flights.getD [] ++ [fl]) } }))) := by
  constructor
  · intro π φ apt db
    obtain ⟨⟨ap, fls⟩, fdata⟩ := db
    constructor
    · rintro ⟨a, ha, hcode⟩
      cases ap with
      | none => simp at ha
      | some l =>
        simp only [Option.getD_some] at ha
        simp only [Store.add_airport, Option.getD_some]
        rw [if_pos (List.any_eq_true.mpr ⟨a, ha, by simp [hcode]⟩)]
    · intro hno
      cases ap with
      | none =>
        simp only [Store.add_airport, Option.getD_none]
        rw [if_neg (by simp)]
      | some l =>
        simp only [Option.getD_some] at hno
        simp only [Store.add_airport, Option.getD_some]
        rw [if_neg (by
          rw [List.any_eq_true]
          rintro ⟨a, ha, hcode⟩
          exact hno a ha (by simpa using hcode))]
  · intro π φ fl db
    obtain ⟨⟨ap, fls⟩, fdata⟩ := db
    constructor
    · rintro ⟨a, ha, hcode⟩
      cases fls with
      | none => simp at ha
      | some l =>
        simp only [Option.getD_some] at ha
        simp only [Store.add_flight, Option.getD_some]
        rw [if_pos (List.any_eq_true.mpr ⟨a, ha, by simp [hcode]⟩)]
    · intro hno
      cases fls with
      | none =>
        simp only [Store.add_flight, Option.getD_none]
        rw [if_neg (by simp)]
      | some l =>
        simp only [Option.getD_some] at hno
        simp only [Store.add_flight, Option.getD_some]
        rw [if_neg (by
          rw [List.any_eq_true]
          rintro ⟨a, ha, hcode⟩
          exact hno a ha (by simpa using hcode))]

theorem C10_add_operations_atomic_witness :
    Store.add_airport (Store.AirportRec.mk "DEL" ())
        (Store.DB.mk
          (Store.Data.mk (some [Store.AirportRec.mk "DEL" ()]) none
            : Store.Data Unit Unit)
          (Store.Data.mk none none))
      = (false, Store.DB.mk
          (Store.Data.mk (some [Store.AirportRec.mk "DEL" ()]) none
            : Store.Data Unit Unit)
          (Store.Data.mk none none)) ∧
    Store.add_flight (Store.FlightRec.mk "FL1000" ())
        (Store.DB.mk (Store.Data.mk none none : Store.Data Unit Unit)
          (Store.Data.mk none none))
      = (true, Store.DB.mk
          (Store.Data.mk none (some [Store.FlightRec.mk "FL1000" ()])
            : Store.Data Unit Unit)
          (Store.Data.mk none (some [Store.FlightRec.mk "FL1000" ()]))) := by
  constructor
  · exact (C10_add_operations_atomic.1 Unit Unit _ _).1
      ⟨Store.AirportRec.mk "DEL" (), by simp, rfl⟩
  · have h := (C10_add_operations_atomic.2 Unit Unit
      (Store.FlightRec.mk "FL1000" ())
      (Store.DB.mk (Store.Data.mk none none : Store.Data Unit Unit)
        (Store.Data.mk none none))).2 (by simp)
    simpa using h

/-- C6: for every graph and every query, each search variant's main
loop exits after finitely many iterations — the k-result bound and the
per-node revisit cap make the reachable state space finite — even on
cyclic graphs and when no path to the destination exists.  `none` is
exactly the loop-exit condition of each `step`, and the exhibited
iteration count is the fuel `getTopKPaths` and `find_smart_routes` run
with. -/
theorem C6_search_terminates :
    (∀ (g : List Algo.Flight) (startNode endNode : String) (k : Nat)
        (lay : Int),
      ∃ n, Algo.step g endNode k lay
        (runOpt (Algo.step g endNode k lay) n (Algo.initConfig startNode))
          = none) ∧
    (∀ (adj : List (String × List Smart.Edge)) (src dst req_date : String)
        (k : Nat),
      ∃ n, Smart.step adj src dst req_date k
        (runOpt (Smart.step adj src dst req_date k) n (Smart.initConfig src))
          = none) := by
  constructor
  · intro g s e k lay
    exact ⟨Algo.mu g k (Algo.initConfig s),
      runOpt_reaches_none _ (Algo.mu g k)
        (fun c c' => stepP_decreases g e k lay c c') _ _ (le_refl _)⟩
  · intro adj src dst req_date k
    exact ⟨Smart.mu adj k (Smart.initConfig src),
      runOpt_reaches_none _ (Smart.mu adj k)
        (fun c c' => stepS_decreases adj src dst req_date k c c') _ _
        (le_refl _)⟩

/-- C7: both search variants are deterministic — two runs on an
identical graph with identical source, destination, k and option
values return the same ordered result list.  In the embedding each
variant is a pure function of exactly these inputs (the C++ reads no
other state inside the loop), so equal inputs give equal outputs. -/
theorem C7_deterministic :
    (∀ (g g' : List Algo.Flight) (s s' e e' : String) (k k' : Nat)
        (lay lay' : Int), g = g' → s = s' → e = e' → k = k' → lay = lay' →
      Algo.getTopKPaths g s e k lay = Algo.getTopKPaths g' s' e' k' lay') ∧
    (∀ (adj adj' : List (String × List Smart.Edge)) (s s' d d' t t' : String)
        (k k' : Nat), adj = adj' → s = s' → d = d' → t = t' → k = k' →
      Smart.find_smart_routes adj s d t k
        = Smart.find_smart_routes adj' s' d' t' k') := by
  constructor
  · intro g g' s s' e e' k k' lay lay' h1 h2 h3 h4 h5
    subst h1; subst h2; subst h3; subst h4; subst h5
    rfl
  · intro adj adj' s s' d d' t t' k k' h1 h2 h3 h4 h5
    subst h1; subst h2; subst h3; subst h4; subst h5
    rfl

theorem C7_deterministic_witness :
    Algo.getTopKPaths [] "JFK" "SYD" 3 120
      = Algo.getTopKPaths [] "JFK" "SYD" 3 120 ∧
    Smart.find_smart_routes [] "DEL" "BOM" "2025-12-11" 5
      = Smart.find_smart_routes [] "DEL" "BOM" "2025-12-11" 5 :=
  ⟨C7_deterministic.1 [] [] "JFK" "JFK" "SYD" "SYD" 3 3 120 120
      rfl rfl rfl rfl rfl,
    C7_deterministic.2 [] [] "DEL" "DEL" "BOM" "BOM" "2025-12-11" "2025-12-11"
      5 5 rfl rfl rfl rfl rfl⟩

/-- C8: for every graph, a query with `source == destination` and
`k = 1` returns exactly one result, the zero-leg trivial path: zero
accumulated weight, the sentinel arrival time, an empty itinerary (and,
in the duration variant, `stops = -1` and zero total price), because the
initial state is finalized on the very first pop. -/
theorem C8_source_eq_destination :
    (∀ (g : List Algo.Flight) (s : String) (lay : Int),
      Algo.getTopKPaths g s s 1 lay
        = [{ totalCost := 0, arrivalTime := -1, route := [] }]) ∧
    (∀ (adj : List (String × List Smart.Edge)) (s req_date : String),
      Smart.find_smart_routes adj s s req_date 1
        = [{ total_time := 0, stops := -1, segments := [],
             total_price := 0 }]) := by
  constructor
  · intro g s lay
    unfold Algo.getTopKPaths
    have hstep : Algo.step g s 1 lay (Algo.initConfig s)
        = some { pq := [], visitCounts := fun _ => 0,
                 results := [{ totalCost := 0, arrivalTime := -1, route := [] }],
                 halted := true } := by
      simp [Algo.step, Algo.initConfig, Algo.initState, popMin, Algo.finalize]
    have hpos : 1 ≤ Algo.mu g 1 (Algo.initConfig s) := by
      unfold Algo.mu Algo.initConfig
      simp
    obtain ⟨m, hm⟩ := Nat.exists_eq_add_of_le hpos
    rw [hm, Nat.add_comm 1 m]
    have hrun : runOpt (Algo.step g s 1 lay) (m + 1) (Algo.initConfig s)
        = runOpt (Algo.step g s 1 lay) m
            { pq := [], visitCounts := fun _ => 0,
              results := [{ totalCost := 0, arrivalTime := -1, route := [] }],
              halted := true } := by
      simp [runOpt, hstep]
    rw [hrun, runOpt_of_none]
    simp [Algo.step]
  · intro adj s req_date
    unfold Smart.find_smart_routes
    have hstep : Smart.step adj s s req_date 1 (Smart.initConfig s)
        = some { pq := [], visits := fun _ => 0,
                 results := [{ total_time := 0, stops := -1, segments := [],
                               total_price := 0 }] } := by
      simp [Smart.step, Smart.initConfig, popMin, Smart.finalizeRoute,
        Smart.chainSegments]
    have hpos : 1 ≤ Smart.mu adj 1 (Smart.initConfig s) := by
      unfold Smart.mu Smart.initConfig
      simp
    obtain ⟨m, hm⟩ := Nat.exists_eq_add_of_le hpos
    rw [hm, Nat.add_comm 1 m]
    have hrun : runOpt (Smart.step adj s s req_date 1) (m + 1)
          (Smart.initConfig s)
        = runOpt (Smart.step adj s s req_date 1) m
            { pq := [], visits := fun _ => 0,
              results := [{ total_time := 0, stops := -1, segments := [],
                            total_price := 0 }] } := by
      simp [runOpt, hstep]
    rw [hrun, runOpt_of_none]
    simp [Smart.step]

/-- C9: in both variants the goal check precedes the revisit-counter
update: a state popped at the destination is finalized as a result and
the counters are passed on unchanged, whatever their values — such pops
are never discarded by the `max_node_revisits` pruning.  (In the
duration variant a pop only happens under the loop condition
`results.size() < k`.) -/
theorem C9_goal_check_precedes_pruning :
    (∀ (g : List Algo.Flight) (e : String) (k : Nat) (lay : Int)
        (c : Algo.Config) (cur : Algo.SearchState) (rest : List Algo.SearchState),
      c.halted = false →
      popMin (fun s => s.currentCost) c.pq = some (cur, rest) →
      cur.currentAirport = e →
      Algo.step g e k lay c
        = some { pq := rest, visitCounts := c.visitCounts,
                 results := c.results ++ [Algo.finalize cur],
                 halted := decide
                   (k ≤ (c.results ++ [Algo.finalize cur]).length) }) ∧
    (∀ (adj : List (String × List Smart.Edge)) (src dst req_date : String)
        (k : Nat) (c : Smart.Config) (top : Smart.PathState)
        (rest : List Smart.PathState),
      c.results.length < k →
      popMin (fun s => s.total_minutes) c.pq = some (top, rest) →
      top.current_node = dst →
      Smart.step adj src dst req_date k c
        = some { pq := rest, visits := c.visits,
                 results := c.results ++ [Smart.finalizeRoute src top] }) := by
  constructor
  · intro g e k lay c cur rest hhalt hpop hdst
    unfold Algo.step
    rw [hhalt, hpop]
    simp [hdst]
  · intro adj src dst req_date k c top rest hlen hpop hdst
    unfold Smart.step
    rw [hpop]
    simp [hdst, Nat.not_le.mpr hlen]

theorem C9_goal_check_precedes_pruning_witness :
    (Algo.step [] "D" 1 0
        { pq := [{ currentCost := 5, currentAirport := "D", arrivalTime := 3,
                   pathHistory := [], visitedNodes := ["S", "D"] }],
          visitCounts := fun _ => 99, results := [], halted := false }
      = some { pq := [], visitCounts := fun _ => 99,
               results := [{ totalCost := 5, arrivalTime := 3, route := [] }],
               halted := true }) ∧
    (Smart.step [] "S" "D" "d" 1
        { pq := [{ total_minutes := 7, current_node := "D", history := [] }],
          visits := fun _ => 99, results := [] }
      = some { pq := [], visits := fun _ => 99,
               results := [{ total_time := 7, stops := -1, segments := [],
                             total_price := 0 }] }) := by
  constructor
  · have h := C9_goal_check_precedes_pruning.1 [] "D" 1 0
      { pq := [{ currentCost := 5, currentAirport := "D", arrivalTime := 3,
                 pathHistory := [], visitedNodes := ["S", "D"] }],
        visitCounts := fun _ => 99, results := [], halted := false }
      { currentCost := 5, currentAirport := "D", arrivalTime := 3,
        pathHistory := [], visitedNodes := ["S", "D"] } [] rfl rfl rfl
    simpa [Algo.finalize] using h
  · have h := C9_goal_check_precedes_pruning.2 [] "S" "D" "d" 1
      { pq := [{ total_minutes := 7, current_node := "D", history := [] }],
        visits := fun _ => 99, results := [] }
      { total_minutes := 7, current_node := "D", history := [] } []
      (by decide) rfl rfl
    simpa [Smart.finalizeRoute, Smart.chainSegments] using h

end FlightSearch
